import Mathlib

/-!
Verification of the mstore package: a content-addressed wrapper around an
embedded transactional key-value engine.  The development shallowly embeds
the package operations (GenPK, Marshal, Unmarshal, InitPersistentMode,
InitDisklessMode, Set, SetWithTTL, Get, GetBatch, Remove, RemoveBatch,
Close, and the runGC tick) as executable Lean functions over an explicit
store state, and proves the specified contracts about them.
-/

namespace MStore

/-- Bytes are modelled as lists of naturals; a well-formed byte is below 256. -/
abbrev Bytes := List Nat

/-! ### 32-bit arithmetic helpers for the MD5 hash model -/

/-- Truncation to 32 bits. -/
def w32 (x : Nat) : Nat := x % 4294967296

/-- Bitwise combination by structural recursion on a 32-bit fuel, so that
every use kernel-reduces. -/
def bw (f : Bool → Bool → Bool) : Nat → Nat → Nat → Nat
  | 0, _, _ => 0
  | k + 1, x, y =>
    (if f (x % 2 == 1) (y % 2 == 1) then 1 else 0) + 2 * bw f k (x / 2) (y / 2)

/-- 32-bit bitwise and. -/
def land32 (x y : Nat) : Nat := bw (fun a b => a && b) 32 x y

/-- 32-bit bitwise or. -/
def lor32 (x y : Nat) : Nat := bw (fun a b => a || b) 32 x y

/-- 32-bit bitwise xor. -/
def lxor32 (x y : Nat) : Nat := bw (fun a b => a != b) 32 x y

/-- 32-bit bitwise complement. -/
def lnot32 (x : Nat) : Nat := 4294967295 - w32 x

/-- Left rotation of a 32-bit value, expressed arithmetically. -/
def rotl (x n : Nat) : Nat := x % 2 ^ (32 - n) * 2 ^ n + x / 2 ^ (32 - n)

/-! ### The MD5 hash (crypto/md5)

Modelled from the spec: the key-derivation digest is the external crypto/md5
library, not part of this repository; it is embedded here as the full RFC
1321 algorithm so that GenPK is a concrete executable function. -/

/-- The MD5 round constants (RFC 1321 T table). -/
def kTable : List Nat :=
  [0xd76aa478, 0xe8c7b756, 0x242070db, 0xc1bdceee,
   0xf57c0faf, 0x4787c62a, 0xa8304613, 0xfd469501,
   0x698098d8, 0x8b44f7af, 0xffff5bb1, 0x895cd7be,
   0x6b901122, 0xfd987193, 0xa679438e, 0x49b40821,
   0xf61e2562, 0xc040b340, 0x265e5a51, 0xe9b6c7aa,
   0xd62f105d, 0x02441453, 0xd8a1e681, 0xe7d3fbc8,
   0x21e1cde6, 0xc33707d6, 0xf4d50d87, 0x455a14ed,
   0xa9e3e905, 0xfcefa3f8, 0x676f02d9, 0x8d2a4c8a,
   0xfffa3942, 0x8771f681, 0x6d9d6122, 0xfde5380c,
   0xa4beea44, 0x4bdecfa9, 0xf6bb4b60, 0xbebfbc70,
   0x289b7ec6, 0xeaa127fa, 0xd4ef3085, 0x04881d05,
   0xd9d4d039, 0xe6db99e5, 0x1fa27cf8, 0xc4ac5665,
   0xf4292244, 0x432aff97, 0xab9423a7, 0xfc93a039,
   0x655b59c3, 0x8f0ccc92, 0xffeff47d, 0x85845dd1,
   0x6fa87e4f, 0xfe2ce6e0, 0xa3014314, 0x4e0811a1,
   0xf7537e82, 0xbd3af235, 0x2ad7d2bb, 0xeb86d391]

/-- The MD5 per-round shift amounts. -/
def sTable : List Nat :=
  [7, 12, 17, 22, 7, 12, 17, 22, 7, 12, 17, 22, 7, 12, 17, 22,
   5, 9, 14, 20, 5, 9, 14, 20, 5, 9, 14, 20, 5, 9, 14, 20,
   4, 11, 16, 23, 4, 11, 16, 23, 4, 11, 16, 23, 4, 11, 16, 23,
   6, 10, 15, 21, 6, 10, 15, 21, 6, 10, 15, 21, 6, 10, 15, 21]

/-- MD5 round function F. -/
def md5F (b c d : Nat) : Nat := lor32 (land32 b c) (land32 (lnot32 b) d)

/-- MD5 round function G. -/
def md5G (b c d : Nat) : Nat := lor32 (land32 b d) (land32 c (lnot32 d))

/-- MD5 round function H. -/
def md5H (b c d : Nat) : Nat := lxor32 b (lxor32 c d)

/-- MD5 round function I. -/
def md5I (b c d : Nat) : Nat := lxor32 c (lor32 b (lnot32 d))

/-- One of the 64 MD5 operations, updating the running state. -/
def md5Step (x : List Nat) (st : Nat × Nat × Nat × Nat) (i : Nat) :
    Nat × Nat × Nat × Nat :=
  let a := st.1
  let b := st.2.1
  let c := st.2.2.1
  let d := st.2.2.2
  let fg :=
    if i < 16 then (md5F b c d, i)
    else if i < 32 then (md5G b c d, (5 * i + 1) % 16)
    else if i < 48 then (md5H b c d, (3 * i + 5) % 16)
    else (md5I b c d, (7 * i) % 16)
  let t := w32 (fg.1 + a + kTable.getD i 0 + x.getD fg.2 0)
  (d, w32 (b + rotl t (sTable.getD i 0)), b, c)

/-- Little-endian byte serialization of a value on a fixed byte count. -/
def leBytes : Nat → Nat → Bytes
  | 0, _ => []
  | k + 1, n => n % 256 :: leBytes k (n / 256)

/-- Assemble a fixed number of little-endian 32-bit words from bytes. -/
def words : Nat → Bytes → List Nat
  | 0, _ => []
  | k + 1, l =>
    (l.getD 0 0 + 256 * l.getD 1 0 + 65536 * l.getD 2 0 + 16777216 * l.getD 3 0)
      :: words k (l.drop 4)

/-- Process one 64-byte MD5 block. -/
def md5Block (st : Nat × Nat × Nat × Nat) (block : Bytes) :
    Nat × Nat × Nat × Nat :=
  let x := words 16 block
  let f := (List.range 64).foldl (md5Step x) st
  (w32 (st.1 + f.1), w32 (st.2.1 + f.2.1),
   w32 (st.2.2.1 + f.2.2.1), w32 (st.2.2.2 + f.2.2.2))

/-- MD5 message padding: a 0x80 byte, zeros to 56 mod 64, then the bit
length as 8 little-endian bytes. -/
def md5Pad (msg : Bytes) : Bytes :=
  msg ++ 128 :: List.replicate ((119 - msg.length % 64) % 64) 0
    ++ leBytes 8 ((8 * msg.length) % 18446744073709551616)

/-- Split a padded message into 64-byte blocks, by fuel so that it
kernel-reduces. -/
def chunksAux : Nat → Bytes → List Bytes
  | 0, _ => []
  | _ + 1, [] => []
  | k + 1, l => l.take 64 :: chunksAux k (l.drop 64)

/-- The MD5 digest of a byte string: sixteen bytes. -/
def md5 (msg : Bytes) : Bytes :=
  let p := md5Pad msg
  let st := (chunksAux p.length p).foldl md5Block
    (0x67452301, 0xefcdab89, 0x98badcfe, 0x10325476)
  leBytes 4 st.1 ++ leBytes 4 st.2.1 ++ leBytes 4 st.2.2.1 ++ leBytes 4 st.2.2.2

/-! ### Standard base64 (encoding/base64 StdEncoding)

Modelled from the spec: the text-safe key encoding is the external
encoding/base64 standard alphabet with padding, embedded here as an
executable encoder together with a decoder used to prove injectivity. -/

/-- The standard base64 alphabet character for a 6-bit value. -/
def b64Char (n : Nat) : Char :=
  if n < 26 then Char.ofNat (65 + n)
  else if n < 52 then Char.ofNat (71 + n)
  else if n < 62 then Char.ofNat (n - 4)
  else if n = 62 then '+'
  else '/'

/-- Standard base64 encoding with padding. -/
def b64Encode : Bytes → List Char
  | [] => []
  | [a] => [b64Char (a / 4), b64Char (a % 4 * 16), '=', '=']
  | [a, b] => [b64Char (a / 4), b64Char (a % 4 * 16 + b / 16), b64Char (b % 16 * 4), '=']
  | a :: b :: c :: rest =>
    b64Char (a / 4) :: b64Char (a % 4 * 16 + b / 16) ::
      b64Char (b % 16 * 4 + c / 64) :: b64Char (c % 64) :: b64Encode rest

/-- The 6-bit value of a base64 alphabet character. -/
def b64Val (c : Char) : Option Nat :=
  if 65 ≤ c.toNat ∧ c.toNat ≤ 90 then some (c.toNat - 65)
  else if 97 ≤ c.toNat ∧ c.toNat ≤ 122 then some (c.toNat - 71)
  else if 48 ≤ c.toNat ∧ c.toNat ≤ 57 then some (c.toNat + 4)
  else if c.toNat = 43 then some 62
  else if c.toNat = 47 then some 63
  else none

/-- Standard base64 decoding, the inverse of the encoder on well-formed
byte strings. -/
def b64Decode : List Char → Option Bytes
  | [] => some []
  | c1 :: c2 :: c3 :: c4 :: rest =>
    if c3 = '=' ∧ c4 = '=' ∧ rest = [] then
      match b64Val c1, b64Val c2 with
      | some v1, some v2 => some [v1 * 4 + v2 / 16]
      | _, _ => none
    else if c4 = '=' ∧ rest = [] then
      match b64Val c1, b64Val c2, b64Val c3 with
      | some v1, some v2, some v3 => some [v1 * 4 + v2 / 16, v2 % 16 * 16 + v3 / 4]
      | _, _, _ => none
    else
      match b64Val c1, b64Val c2, b64Val c3, b64Val c4, b64Decode rest with
      | some v1, some v2, some v3, some v4, some tl =>
        some ((v1 * 4 + v2 / 16) :: (v2 % 16 * 16 + v3 / 4) :: (v3 % 4 * 64 + v4) :: tl)
      | _, _, _, _, _ => none
  | _ => none

/-! ### The gob codec (encoding/gob)

Modelled from the spec: the serializer behind Marshal and Unmarshal is the
external encoding/gob library; per the spec it is a codec obeying the
round-trip law on serializable values.  It is embedded as an executable
self-delimiting byte codec for the record type used by the repository
(an integer field and a byte-string field, as in the package tests). -/

/-- Variable-length encoding of a natural, 7 bits per byte, by fuel so
that it kernel-reduces. -/
def encVarAux : Nat → Nat → Bytes
  | 0, n => [n % 128]
  | f + 1, n => if n < 128 then [n] else (n % 128 + 128) :: encVarAux f (n / 128)

/-- Variable-length encoding of a natural. -/
def encVar (n : Nat) : Bytes := encVarAux n n

/-- Decoder for the variable-length natural encoding. -/
def decVar : Bytes → Option (Nat × Bytes)
  | [] => none
  | b :: r =>
    if b < 128 then some (b, r)
    else
      match decVar r with
      | some (m, r2) => some (m * 128 + (b - 128), r2)
      | none => none

/-- Sign-and-magnitude integer encoding. -/
def encInt (i : Int) : Bytes := (if i < 0 then 1 else 0) :: encVar i.natAbs

/-- Decoder for the integer encoding. -/
def decInt (l : Bytes) : Option (Int × Bytes) :=
  match l with
  | [] => none
  | s :: r =>
    match decVar r with
    | some (m, r2) => some (if s = 1 then -(m : Int) else (m : Int), r2)
    | none => none

/-- Length-prefixed byte-string encoding. -/
def encBytes (l : Bytes) : Bytes := encVar l.length ++ l

/-- Decoder for the length-prefixed byte-string encoding. -/
def decBytes (l : Bytes) : Option (Bytes × Bytes) :=
  match decVar l with
  | some (n, r) => if n ≤ r.length then some (r.take n, r.drop n) else none
  | none => none

/-- The serializable record type round-tripped through the codec: an
integer field and a byte-string field, mirroring the struct the package
tests serialize. -/
structure TestObj where
  nbr : Int
  txt : Bytes
deriving DecidableEq, Repr

/-- Serialize a record to bytes. -/
def gobEncode (v : TestObj) : Bytes := encInt v.nbr ++ encBytes v.txt

/-- Deserialize a record from bytes. -/
def gobDecode (data : Bytes) : Option TestObj :=
  match decInt data with
  | none => none
  | some (n, r) =>
    match decBytes r with
    | none => none
    | some (t, _) => some ⟨n, t⟩

/-- The decode target: Go reflect distinguishes a non-pointer, a nil
pointer, and a usable non-nil pointer. -/
inductive Target where
  | notPtr
  | nilPtr
  | validPtr
deriving DecidableEq, Repr

/-- Marshal takes a record and serializes it into a byte slice
(mstore.Marshal); on the modelled serializable record type the encoder
always succeeds. -/
def Marshal (v : TestObj) : Except String Bytes := .ok (gobEncode v)

/-- Unmarshal parses the encoded data and stores the result in the value
pointed to by the target (mstore.Unmarshal): it first rejects a target
that is not a non-nil pointer, then decodes. -/
def Unmarshal (data : Bytes) (t : Target) : Except String TestObj :=
  match t with
  | .validPtr =>
    match gobDecode data with
    | some v => .ok v
    | none => .error "could not unmarshal bytes"
  | _ => .error "v must be a pointer and not nil"

/-! ### The store state

The package keeps two package-level variables: the engine handle db (nil
until the first initialize) and the isOpen flag.  The engine itself
(badger) is external to the repository; per the spec it is a black-box
transactional key-value store with entry-level TTL support, modelled here
as a closed flag plus a list of entries.  Time is an explicit counter so
that TTL expiry is statable; badger expiry has seconds granularity and an
entry is expired once its expiry instant is not in the future. -/

/-- One stored entry: key, payload, and optional absolute expiry instant. -/
structure Entry where
  key : Bytes
  value : Bytes
  expiresAt : Option Nat
deriving DecidableEq, Repr

/-- The modelled engine: badger as a black box holding entries. -/
structure Engine where
  closed : Bool
  entries : List Entry
deriving DecidableEq, Repr

/-- The package-level state: the db variable (none models a nil handle),
the isOpen flag, and the model clock. -/
structure MState where
  db : Option Engine
  isOpen : Bool
  now : Nat
deriving DecidableEq, Repr

/-- The state at process start: nil db, closed flag. -/
def initialState : MState := ⟨none, false, 0⟩

/-- A freshly opened engine holds no entries. -/
def freshEngine : Engine := ⟨false, []⟩

/-- An entry is live when it has no expiry or its expiry is in the future. -/
def live (now : Nat) (e : Entry) : Bool :=
  match e.expiresAt with
  | none => true
  | some t => now < t

/-- Find the entry stored under a key. -/
def findEntry (es : List Entry) (k : Bytes) : Option Entry :=
  es.find? (fun e => e.key == k)

/-- Engine read: an expired entry reads as absent. -/
def engineGet (eng : Engine) (now : Nat) (k : Bytes) : Option Bytes :=
  match findEntry eng.entries k with
  | none => none
  | some ent => if live now ent then some ent.value else none

/-- Engine write: replace the entry under the key if present, else append. -/
def putEntry : List Entry → Entry → List Entry
  | [], ne => [ne]
  | e :: es, ne => if e.key == ne.key then ne :: es else e :: putEntry es ne

/-- Engine delete: drop the entry under the key; absent keys are a no-op. -/
def engineDel (es : List Entry) (k : Bytes) : List Entry :=
  es.filter (fun e => !(e.key == k))

/-- The live entries an engine snapshot iteration visits. -/
def liveList (eng : Engine) (now : Nat) : List Entry :=
  eng.entries.filter (live now)

/-- Go map insertion into an association list: overwrite the value when
the key is present, else append the pair. -/
def mapInsert {α : Type} (m : List (List Char × α)) (k : List Char) (v : α) :
    List (List Char × α) :=
  match m with
  | [] => [(k, v)]
  | (k0, v0) :: rest =>
    if k0 = k then (k, v) :: rest else (k0, v0) :: mapInsert rest k v

/-- The not-open failure message returned by the record operations. -/
def notOpenMsg : String := "the storage is not open"

/-! ### The public operations

Each operation is the Lean image of the corresponding Go function.  An
operation that dereferences the nil db handle has no defined result in Go
(a runtime panic); such calls are modelled as none, and a returning call
as some. -/

/-- GenPK derives the 16-byte content key of a payload: empty input is
rejected, otherwise the MD5 digest of the payload is returned. -/
def GenPK (data : Bytes) : Except String Bytes :=
  if data.length = 0 then .error "data for key is empty"
  else .ok (md5 data)

/-- IsOpen reports the isOpen flag. -/
def IsOpen (s : MState) : Bool := s.isOpen

/-- InitPersistentMode: refuse while the db handle is non-nil and not
closed, otherwise bind a fresh engine and set the flag.  The persistent
engine opens against the configured path; the model opens it empty. -/
def InitPersistentMode (s : MState) : Except String Unit × MState :=
  match s.db with
  | some eng =>
    if eng.closed = false then
      (.error "cannot renitialize db while it is still open", s)
    else (.ok (), ⟨some freshEngine, true, s.now⟩)
  | none => (.ok (), ⟨some freshEngine, true, s.now⟩)

/-- InitDisklessMode: the same guard, binding a memory-only engine. -/
def InitDisklessMode (s : MState) : Except String Unit × MState :=
  match s.db with
  | some eng =>
    if eng.closed = false then
      (.error "cannot renitialize db while it is still open", s)
    else (.ok (), ⟨some freshEngine, true, s.now⟩)
  | none => (.ok (), ⟨some freshEngine, true, s.now⟩)

/-- Close: clear the flag; close the engine unless the handle is nil or
already closed. -/
def Close (s : MState) : Except String Unit × MState :=
  match s.db with
  | none => (.ok (), { s with isOpen := false })
  | some eng =>
    if eng.closed then (.ok (), { s with isOpen := false })
    else (.ok (), { s with isOpen := false, db := some { eng with closed := true } })

/-- Get: not-open check, then the 16-byte key-length check, then an engine
read under a view transaction; a missing or expired entry reads as
key-not-found, otherwise a copy of the stored bytes is returned. -/
def Get (s : MState) (key : Bytes) : Option (Except String Bytes) :=
  if s.isOpen = false then some (.error notOpenMsg)
  else if key.length ≠ 16 then some (.error "invalid key")
  else
    match s.db with
    | none => none
    | some eng =>
      match engineGet eng s.now key with
      | none => some (.error "key not found")
      | some v => some (.ok v)

/-- Set: not-open check, key derivation, duplicate check through Get, then
a write transaction storing the payload under the derived key. -/
def Set (s : MState) (data : Bytes) : Option (Except String Bytes × MState) :=
  if s.isOpen = false then some (.error notOpenMsg, s)
  else
    match GenPK data with
    | .error e => some (.error e, s)
    | .ok key =>
      match Get s key with
      | none => none
      | some (.ok _) => some (.error "the entity already exists", s)
      | some (.error _) =>
        match s.db with
        | none => none
        | some eng =>
          some (.ok key,
            { s with db := some { eng with entries := putEntry eng.entries ⟨key, data, none⟩ } })

/-- SetWithTTL: not-open check, key derivation, then an unconditional
write transaction storing the payload with expiry now + ttl; no duplicate
check. -/
def SetWithTTL (s : MState) (data : Bytes) (ttl : Nat) :
    Option (Except String Bytes × MState) :=
  if s.isOpen = false then some (.error notOpenMsg, s)
  else
    match GenPK data with
    | .error e => some (.error e, s)
    | .ok key =>
      match s.db with
      | none => none
      | some eng =>
        some (.ok key,
          { s with db := some { eng with entries := putEntry eng.entries ⟨key, data, some (s.now + ttl)⟩ } })

/-- GetBatch: not-open check, then a snapshot iteration over the live
entries building a map from the base64-encoded key to the payload. -/
def GetBatch (s : MState) : Option (Except String (List (List Char × Bytes))) :=
  if s.isOpen = false then some (.error notOpenMsg)
  else
    match s.db with
    | none => none
    | some eng =>
      some (.ok ((liveList eng s.now).foldl
        (fun m ent => mapInsert m (b64Encode ent.key) ent.value) []))

/-- Remove: not-open check, then a delete transaction; deleting an absent
key is not an error. -/
def Remove (s : MState) (key : Bytes) : Option (Except String Unit × MState) :=
  if s.isOpen = false then some (.error notOpenMsg, s)
  else
    match s.db with
    | none => none
    | some eng =>
      some (.ok (), { s with db := some { eng with entries := engineDel eng.entries key } })

/-- The RemoveBatch loop over the keys: zero-length keys are skipped, each
other key is deleted through Remove, and a failing deletion is recorded in
the error map under the base64-encoded key. -/
def removeLoop : MState → List (List Char × String) → List Bytes →
    Option (List (List Char × String) × MState)
  | s, errs, [] => some (errs, s)
  | s, errs, k :: ks =>
    if k.length = 0 then removeLoop s errs ks
    else
      match Remove s k with
      | none => none
      | some (.ok _, s1) => removeLoop s1 errs ks
      | some (.error msg, s1) => removeLoop s1 (mapInsert errs (b64Encode k) msg) ks

/-- RemoveBatch: opens a transaction on the db handle before any check (a
nil handle is dereferenced, modelled as none), then runs the loop and
returns whether the error map stayed empty, together with the map. -/
def RemoveBatch (s : MState) (keys : List Bytes) :
    Option ((Bool × List (List Char × String)) × MState) :=
  match s.db with
  | none => none
  | some _ =>
    match removeLoop s [] keys with
    | none => none
    | some (errs, s1) => some ((errs.isEmpty, errs), s1)

/-! ### The reclamation tick

One tick of runGC is driven by the successive outcomes the engine
reclamation primitive reports: progress (a nil error, after which the code
jumps back and reclaims again), or a non-nil error, which for badger is
either the benign nothing-more-to-reclaim outcome or a genuine failure.
The tick returns the log lines emitted and whether the engine sync was
forced, and is undefined (none) when the outcome stream runs dry while
still reporting progress. -/

/-- One outcome of the engine reclamation primitive. -/
inductive GCOutcome where
  | progress
  | noRewrite
  | failure
deriving DecidableEq, Repr

/-- The log line runGC prints when reclamation returns a non-nil error. -/
def gcLogMsg : String := "data store garbage collection failed"

/-- One timer tick of runGC as written: reclaim again while the engine
reports progress; on the first non-nil error, log the failure message and
sync, whatever the error was. -/
def runGCTick : List GCOutcome → Option (List String × Bool)
  | [] => none
  | .progress :: rest => runGCTick rest
  | .noRewrite :: _ => some ([gcLogMsg], true)
  | .failure :: _ => some ([gcLogMsg], true)

/-- Modelled from the spec: the tick policy claim C3 states, which treats
the nothing-more-to-reclaim outcome as distinct from an error: stop
without logging and force the sync on a quiescent pass, log without
syncing on an error. -/
def runGCTickClaim : List GCOutcome → Option (List String × Bool)
  | [] => none
  | .progress :: rest => runGCTickClaim rest
  | .noRewrite :: _ => some ([], true)
  | .failure :: _ => some ([gcLogMsg], false)

/-! ### Digest shape lemmas -/

theorem leBytes_length (k n : Nat) : (leBytes k n).length = k := by
  induction k generalizing n with
  | zero => rfl
  | succ k ih => simp [leBytes, ih]

theorem leBytes_lt (k n : Nat) : ∀ b ∈ leBytes k n, b < 256 := by
  induction k generalizing n with
  | zero => simp [leBytes]
  | succ k ih =>
    simp only [leBytes, List.mem_cons]
    rintro b (rfl | hb)
    · exact Nat.mod_lt _ (by norm_num)
    · exact ih _ b hb

/-- The MD5 digest has exactly 16 bytes. -/
theorem md5_length (msg : Bytes) : (md5 msg).length = 16 := by
  simp [md5, leBytes_length]

/-- Every byte of the MD5 digest is below 256. -/
theorem md5_lt (msg : Bytes) : ∀ b ∈ md5 msg, b < 256 := by
  simp only [md5, List.mem_append]
  rintro b (((h | h) | h) | h) <;> exact leBytes_lt _ _ b h

/-! ### Codec round-trip lemmas -/

theorem decVar_encVarAux (f : Nat) :
    ∀ n r, n ≤ f → decVar (encVarAux f n ++ r) = some (n, r) := by
  induction f with
  | zero =>
    intro n r hn
    interval_cases n
    rfl
  | succ f ih =>
    intro n r hn
    by_cases h : n < 128
    · simp [encVarAux, decVar, h]
    · have hrec : n / 128 ≤ f := by
        have := Nat.div_lt_self (by omega : 0 < n) (by norm_num : 1 < 128)
        omega
      have hb : ¬ (n % 128 + 128 < 128) := by omega
      simp only [encVarAux, if_neg h, List.cons_append, decVar, if_neg hb,
        ih (n / 128) r hrec]
      have : n / 128 * 128 + (n % 128 + 128 - 128) = n := by omega
      rw [this]

theorem decVar_encVar (n : Nat) (r : Bytes) :
    decVar (encVar n ++ r) = some (n, r) :=
  decVar_encVarAux n n r le_rfl

theorem decInt_encInt (i : Int) (r : Bytes) :
    decInt (encInt i ++ r) = some (i, r) := by
  by_cases hi : i < 0
  · have h1 : -(i.natAbs : Int) = i := by omega
    simp only [encInt, if_pos hi, List.cons_append, decInt, decVar_encVar,
      eq_self_iff_true, if_true, h1]
  · have h1 : ((i.natAbs : Int)) = i := by omega
    have h01 : ¬ ((0 : Nat) = 1) := by omega
    simp only [encInt, if_neg hi, List.cons_append, decInt, decVar_encVar,
      if_neg h01, h1]

theorem decBytes_encBytes (l r : Bytes) :
    decBytes (encBytes l ++ r) = some (l, r) := by
  simp only [encBytes, List.append_assoc, decBytes, decVar_encVar]
  have hle : l.length ≤ (l ++ r).length := by simp
  rw [if_pos hle, List.take_left, List.drop_left]

/-- The codec round trip on the record type. -/
theorem gobDecode_gobEncode (v : TestObj) : gobDecode (gobEncode v) = some v := by
  have h2 : decBytes (encBytes v.txt) = some (v.txt, []) := by
    have := decBytes_encBytes v.txt []
    simpa using this
  simp [gobEncode, gobDecode, decInt_encInt, h2]

/-! ### Base64 lemmas -/

theorem b64Val_b64Char : ∀ n, n < 64 → b64Val (b64Char n) = some n := by decide

theorem b64Char_ne_pad : ∀ n, n < 64 → b64Char n ≠ '=' := by decide

theorem b64_roundtrip :
    ∀ l : Bytes, (∀ b ∈ l, b < 256) → b64Decode (b64Encode l) = some l
  | [], _ => rfl
  | [a], h => by
    have ha : a < 256 := h a (by simp)
    have h1 : b64Val (b64Char (a / 4)) = some (a / 4) :=
      b64Val_b64Char _ (by omega)
    have h2 : b64Val (b64Char (a % 4 * 16)) = some (a % 4 * 16) :=
      b64Val_b64Char _ (by omega)
    simp only [b64Encode, b64Decode, h1, h2, and_self, if_pos, if_true]
    simp only [Option.some.injEq, List.cons.injEq, and_true]
    omega
  | [a, b], h => by
    have ha : a < 256 := h a (by simp)
    have hb : b < 256 := h b (by simp)
    have h1 : b64Val (b64Char (a / 4)) = some (a / 4) :=
      b64Val_b64Char _ (by omega)
    have h2 : b64Val (b64Char (a % 4 * 16 + b / 16)) = some (a % 4 * 16 + b / 16) :=
      b64Val_b64Char _ (by omega)
    have h3 : b64Val (b64Char (b % 16 * 4)) = some (b % 16 * 4) :=
      b64Val_b64Char _ (by omega)
    have hpad : b64Char (b % 16 * 4) ≠ '=' := b64Char_ne_pad _ (by omega)
    simp only [b64Encode, b64Decode, h1, h2, h3, hpad, false_and, if_false,
      and_self, and_true, if_pos, if_true]
    simp only [Option.some.injEq, List.cons.injEq, and_true]
    omega
  | a :: b :: c :: rest, h => by
    have ha : a < 256 := h a (by simp)
    have hb : b < 256 := h b (by simp)
    have hc : c < 256 := h c (by simp)
    have hrest : ∀ x ∈ rest, x < 256 := fun x hx => h x (by simp [hx])
    have ih := b64_roundtrip rest hrest
    have h1 : b64Val (b64Char (a / 4)) = some (a / 4) :=
      b64Val_b64Char _ (by omega)
    have h2 : b64Val (b64Char (a % 4 * 16 + b / 16)) = some (a % 4 * 16 + b / 16) :=
      b64Val_b64Char _ (by omega)
    have h3 : b64Val (b64Char (b % 16 * 4 + c / 64)) = some (b % 16 * 4 + c / 64) :=
      b64Val_b64Char _ (by omega)
    have h4 : b64Val (b64Char (c % 64)) = some (c % 64) :=
      b64Val_b64Char _ (by omega)
    have hp3 : b64Char (b % 16 * 4 + c / 64) ≠ '=' := b64Char_ne_pad _ (by omega)
    have hp4 : b64Char (c % 64) ≠ '=' := b64Char_ne_pad _ (by omega)
    simp only [b64Encode, b64Decode, h1, h2, h3, h4, hp3, hp4, ih, false_and,
      and_false, if_false]
    simp only [Option.some.injEq, List.cons.injEq, and_true, true_and,
      eq_self_iff_true]
    omega

/-- The base64 encoding is injective on byte strings. -/
theorem b64Encode_inj {l1 l2 : Bytes} (h1 : ∀ b ∈ l1, b < 256)
    (h2 : ∀ b ∈ l2, b < 256) (he : b64Encode l1 = b64Encode l2) : l1 = l2 := by
  have hr := b64_roundtrip l1 h1
  rw [he, b64_roundtrip l2 h2] at hr
  exact (Option.some.inj hr).symm

/-! ### Map insertion lemmas -/

theorem mapInsert_of_not_mem {α : Type} (m : List (List Char × α)) (k : List Char)
    (v : α) (h : ∀ p ∈ m, p.1 ≠ k) : mapInsert m k v = m ++ [(k, v)] := by
  induction m with
  | nil => rfl
  | cons p rest ih =>
    have hp : p.1 ≠ k := h p (by simp)
    simp only [mapInsert, if_neg hp]
    rw [ih (fun q hq => h q (by simp [hq]))]
    simp

theorem mem_mapInsert_self {α : Type} (m : List (List Char × α)) (k : List Char)
    (v : α) : (k, v) ∈ mapInsert m k v := by
  induction m with
  | nil => simp [mapInsert]
  | cons p rest ih =>
    by_cases hp : p.1 = k
    · simp [mapInsert, hp]
    · simp only [mapInsert, if_neg hp]
      exact List.mem_cons_of_mem _ ih

theorem mem_mapInsert_keep {α : Type} (m : List (List Char × α)) (k0 k : List Char)
    (v : α) (h : (k0, v) ∈ m) : (k0, v) ∈ mapInsert m k v := by
  induction m with
  | nil => simp at h
  | cons p rest ih =>
    by_cases hp : p.1 = k
    · simp only [mapInsert, if_pos hp]
      rcases List.mem_cons.mp h with heq | hmem
      · have hk : k0 = k := by
          rw [← heq] at hp
          simpa using hp
        subst hk
        exact List.mem_cons_self _ _
      · exact List.mem_cons_of_mem _ hmem
    · simp only [mapInsert, if_neg hp]
      rcases List.mem_cons.mp h with rfl | hmem
      · exact List.mem_cons_self _ _
      · exact List.mem_cons_of_mem _ (ih hmem)

/-! ### Engine lemmas -/

/-- Building the GetBatch map over entries with pairwise distinct encoded
keys appends one pair per entry. -/
theorem foldl_mapInsert_eq :
    ∀ (ents : List Entry) (acc : List (List Char × Bytes)),
      List.Pairwise (fun x y : Entry => b64Encode x.key ≠ b64Encode y.key) ents →
      (∀ ent ∈ ents, ∀ p ∈ acc, p.1 ≠ b64Encode ent.key) →
      ents.foldl (fun m ent => mapInsert m (b64Encode ent.key) ent.value) acc
        = acc ++ ents.map (fun ent => (b64Encode ent.key, ent.value))
  | [], acc, _, _ => by simp
  | e :: ents, acc, hpw, hacc => by
    have hnot : ∀ p ∈ acc, p.1 ≠ b64Encode e.key :=
      fun p hp => hacc e (by simp) p hp
    have hacc2 : ∀ ent ∈ ents, ∀ p ∈ acc ++ [(b64Encode e.key, e.value)],
        p.1 ≠ b64Encode ent.key := by
      intro ent hent p hp
      rcases List.mem_append.mp hp with hmem | hmem
      · exact hacc ent (List.mem_cons_of_mem _ hent) p hmem
      · have hpe : p = (b64Encode e.key, e.value) := by simpa using hmem
        rw [hpe]
        exact (List.pairwise_cons.mp hpw).1 ent hent
    rw [List.foldl_cons, mapInsert_of_not_mem acc _ _ hnot,
      foldl_mapInsert_eq ents _ (List.pairwise_cons.mp hpw).2 hacc2]
    simp

/-- Deleting an absent key leaves the entries unchanged. -/
theorem engineDel_of_absent (es : List Entry) (k : Bytes)
    (h : findEntry es k = none) : engineDel es k = es := by
  unfold findEntry at h
  rw [List.find?_eq_none] at h
  unfold engineDel
  rw [List.filter_eq_self]
  intro e he
  simpa using h e he

/-- After a deletion the key is absent. -/
theorem findEntry_engineDel (es : List Entry) (k : Bytes) :
    findEntry (engineDel es k) k = none := by
  unfold findEntry engineDel
  rw [List.find?_eq_none]
  intro e he
  simpa using (List.mem_filter.mp he).2

/-- Membership after an engine write. -/
theorem mem_putEntry :
    ∀ (es : List Entry) (ne ent : Entry), ent ∈ putEntry es ne →
      ent = ne ∨ ent ∈ es
  | [], ne, ent, h => Or.inl (by simpa [putEntry] using h)
  | e :: es, ne, ent, h => by
    by_cases hk : (e.key == ne.key) = true
    · simp only [putEntry, if_pos hk] at h
      rcases List.mem_cons.mp h with rfl | hmem
      · exact Or.inl rfl
      · exact Or.inr (List.mem_cons_of_mem _ hmem)
    · simp only [putEntry, if_neg hk] at h
      rcases List.mem_cons.mp h with rfl | hmem
      · exact Or.inr (List.mem_cons_self _ _)
      · rcases mem_putEntry es ne ent hmem with h1 | h1
        · exact Or.inl h1
        · exact Or.inr (List.mem_cons_of_mem _ h1)

/-- An engine write preserves distinctness of the stored keys. -/
theorem nodup_keys_putEntry :
    ∀ (es : List Entry) (ne : Entry), (es.map Entry.key).Nodup →
      ((putEntry es ne).map Entry.key).Nodup
  | [], ne, _ => by simp [putEntry]
  | e :: es, ne, h => by
    rw [List.map_cons, List.nodup_cons] at h
    by_cases hk : (e.key == ne.key) = true
    · have hek : e.key = ne.key := by simpa using hk
      simp only [putEntry, if_pos hk, List.map_cons, List.nodup_cons]
      exact ⟨by rw [← hek]; exact h.1, h.2⟩
    · have hek : e.key ≠ ne.key := by simpa using hk
      simp only [putEntry, if_neg hk, List.map_cons, List.nodup_cons]
      refine ⟨?_, nodup_keys_putEntry es ne h.2⟩
      intro hmem
      rw [List.mem_map] at hmem
      obtain ⟨ent, hent, hkey⟩ := hmem
      rcases mem_putEntry es ne ent hent with rfl | h1
      · exact hek hkey.symm
      · exact h.1 (List.mem_map.mpr ⟨ent, h1, hkey⟩)

/-! ### The store invariant (claim C10) -/

/-- Claim C10 invariant: every stored key is the digest of its payload and
every stored payload is non-empty. -/
def KeyInv (eng : Engine) : Prop :=
  ∀ ent ∈ eng.entries, ent.key = md5 ent.value ∧ ent.value ≠ []

/-- The full store invariant: the claim C10 invariant plus distinctness of
the stored keys. -/
def StoreInv (s : MState) : Prop :=
  ∀ eng, s.db = some eng → KeyInv eng ∧ (eng.entries.map Entry.key).Nodup

theorem storeInv_initialState : StoreInv initialState := by
  intro eng h
  simp [initialState] at h

theorem keyInv_freshEngine : KeyInv freshEngine := by
  intro e he
  simp [freshEngine] at he

theorem storeInv_initPersistent (s : MState) (hs : StoreInv s) :
    StoreInv (InitPersistentMode s).2 := by
  obtain ⟨db, op, now⟩ := s
  cases db with
  | none =>
    intro eng2 h
    simp only [InitPersistentMode] at h
    cases h
    exact ⟨keyInv_freshEngine, by simp [freshEngine]⟩
  | some eng =>
    by_cases hc : eng.closed = false
    · intro eng2 h
      simp only [InitPersistentMode, if_pos hc] at h
      exact hs eng2 h
    · intro eng2 h
      simp only [InitPersistentMode, if_neg hc] at h
      cases h
      exact ⟨keyInv_freshEngine, by simp [freshEngine]⟩

theorem storeInv_initDiskless (s : MState) (hs : StoreInv s) :
    StoreInv (InitDisklessMode s).2 := by
  obtain ⟨db, op, now⟩ := s
  cases db with
  | none =>
    intro eng2 h
    simp only [InitDisklessMode] at h
    cases h
    exact ⟨keyInv_freshEngine, by simp [freshEngine]⟩
  | some eng =>
    by_cases hc : eng.closed = false
    · intro eng2 h
      simp only [InitDisklessMode, if_pos hc] at h
      exact hs eng2 h
    · intro eng2 h
      simp only [InitDisklessMode, if_neg hc] at h
      cases h
      exact ⟨keyInv_freshEngine, by simp [freshEngine]⟩

theorem storeInv_close (s : MState) (hs : StoreInv s) : StoreInv (Close s).2 := by
  obtain ⟨db, op, now⟩ := s
  cases db with
  | none =>
    intro eng2 h
    simp [Close] at h
  | some eng =>
    by_cases hc : eng.closed = true
    · intro eng2 h
      simp only [Close, if_pos hc] at h
      cases h
      exact hs eng rfl
    · intro eng2 h
      simp only [Close, if_neg hc] at h
      cases h
      exact hs eng rfl

theorem genPK_ok (data key : Bytes) (h : GenPK data = .ok key) :
    key = md5 data ∧ data ≠ [] := by
  unfold GenPK at h
  split at h
  · cases h
  · rename_i hlen
    cases h
    exact ⟨rfl, by intro hnil; simp [hnil] at hlen⟩

theorem keyInv_put (eng : Engine) (data : Bytes) (exp : Option Nat)
    (hk : KeyInv eng) (hd : data ≠ []) :
    ∀ ent ∈ putEntry eng.entries ⟨md5 data, data, exp⟩,
      ent.key = md5 ent.value ∧ ent.value ≠ [] := by
  intro ent hent
  rcases mem_putEntry _ _ _ hent with rfl | hmem
  · exact ⟨rfl, hd⟩
  · exact hk ent hmem

theorem storeInv_set (s : MState) (data : Bytes) (r : Except String Bytes)
    (s1 : MState) (hs : StoreInv s) (h : Set s data = some (r, s1)) :
    StoreInv s1 := by
  unfold Set at h
  split at h
  · cases h
    exact hs
  · split at h
    · cases h
      exact hs
    · rename_i key hgen
      obtain ⟨hkey, hdata⟩ := genPK_ok data key hgen
      split at h
      · cases h
      · cases h
        exact hs
      · split at h
        · cases h
        · rename_i eng hdb
          cases h
          intro eng2 heq
          cases heq
          subst hkey
          exact ⟨keyInv_put eng data none (hs eng hdb).1 hdata,
            nodup_keys_putEntry _ _ (hs eng hdb).2⟩

theorem storeInv_setWithTTL (s : MState) (data : Bytes) (ttl : Nat)
    (r : Except String Bytes) (s1 : MState) (hs : StoreInv s)
    (h : SetWithTTL s data ttl = some (r, s1)) : StoreInv s1 := by
  unfold SetWithTTL at h
  split at h
  · cases h
    exact hs
  · split at h
    · cases h
      exact hs
    · rename_i key hgen
      obtain ⟨hkey, hdata⟩ := genPK_ok data key hgen
      split at h
      · cases h
      · rename_i eng hdb
        cases h
        intro eng2 heq
        cases heq
        subst hkey
        exact ⟨keyInv_put eng data (some (s.now + ttl)) (hs eng hdb).1 hdata,
          nodup_keys_putEntry _ _ (hs eng hdb).2⟩

theorem storeInv_remove (s : MState) (k : Bytes) (r : Except String Unit)
    (s1 : MState) (hs : StoreInv s) (h : Remove s k = some (r, s1)) :
    StoreInv s1 := by
  unfold Remove at h
  split at h
  · cases h
    exact hs
  · split at h
    · cases h
    · rename_i eng hdb
      cases h
      intro eng2 heq
      cases heq
      constructor
      · intro ent hent
        exact (hs eng hdb).1 ent (List.mem_filter.mp hent).1
      · have hsub : List.Sublist (engineDel eng.entries k) eng.entries :=
          List.filter_sublist _
        exact (hs eng hdb).2.sublist (hsub.map Entry.key)

theorem storeInv_removeLoop :
    ∀ (keys : List Bytes) (s : MState) (errs : List (List Char × String))
      (out : List (List Char × String) × MState),
      StoreInv s → removeLoop s errs keys = some out → StoreInv out.2
  | [], s, errs, out, hs, h => by
    cases h
    exact hs
  | k :: ks, s, errs, out, hs, h => by
    unfold removeLoop at h
    split at h
    · exact storeInv_removeLoop ks s errs out hs h
    · split at h
      · cases h
      · rename_i s1 hrem
        exact storeInv_removeLoop ks s1 errs out
          (storeInv_remove s k _ s1 hs hrem) h
      · rename_i msg s1 hrem
        exact storeInv_removeLoop ks s1 _ out
          (storeInv_remove s k _ s1 hs hrem) h

theorem storeInv_removeBatch (s : MState) (keys : List Bytes)
    (out : (Bool × List (List Char × String)) × MState) (hs : StoreInv s)
    (h : RemoveBatch s keys = some out) : StoreInv out.2 := by
  unfold RemoveBatch at h
  split at h
  · cases h
  · split at h
    · cases h
    · rename_i errs s1 heq
      cases h
      exact storeInv_removeLoop keys s [] (errs, s1) hs heq

/-! ### Reachable states (claim C10) -/

/-- The states reachable from process start through the public operations;
a mutating operation whose Go execution panics (a none result) yields no
state. -/
inductive Reachable : MState → Prop where
  | init : Reachable initialState
  | tick {s : MState} (d : Nat) : Reachable s →
      Reachable { s with now := s.now + d }
  | initPersistent {s : MState} : Reachable s →
      Reachable (InitPersistentMode s).2
  | initDiskless {s : MState} : Reachable s →
      Reachable (InitDisklessMode s).2
  | close {s : MState} : Reachable s → Reachable (Close s).2
  | set {s : MState} {data : Bytes} {r : Except String Bytes} {s1 : MState} :
      Reachable s → Set s data = some (r, s1) → Reachable s1
  | setWithTTL {s : MState} {data : Bytes} {ttl : Nat}
      {r : Except String Bytes} {s1 : MState} :
      Reachable s → SetWithTTL s data ttl = some (r, s1) → Reachable s1
  | remove {s : MState} {k : Bytes} {r : Except String Unit} {s1 : MState} :
      Reachable s → Remove s k = some (r, s1) → Reachable s1
  | removeBatch {s : MState} {keys : List Bytes}
      {out : (Bool × List (List Char × String)) × MState} :
      Reachable s → RemoveBatch s keys = some out → Reachable out.2

/-- Every reachable state satisfies the store invariant. -/
theorem reachable_storeInv (s : MState) (h : Reachable s) : StoreInv s := by
  induction h with
  | init => exact storeInv_initialState
  | tick d _ ih =>
    intro eng heq
    exact ih eng heq
  | initPersistent _ ih => exact storeInv_initPersistent _ ih
  | initDiskless _ ih => exact storeInv_initDiskless _ ih
  | close _ ih => exact storeInv_close _ ih
  | set _ heq ih => exact storeInv_set _ _ _ _ ih heq
  | setWithTTL _ heq ih => exact storeInv_setWithTTL _ _ _ _ _ ih heq
  | remove _ heq ih => exact storeInv_remove _ _ _ _ ih heq
  | removeBatch _ heq ih => exact storeInv_removeBatch _ _ _ ih heq

/-! ### The claims -/

/-- C1: evaluation of the record operations on not-open stores.  Set,
SetWithTTL, Get, GetBatch and Remove each fail immediately with the
NotOpenError result on a closed store, but RemoveBatch does not behave as
the claim states: it opens an engine transaction before any check, so on a
never-opened store (nil handle) it dereferences the nil engine and panics
(modelled none) instead of returning a NotOpenError result; on a closed
but previously bound store it returns a per-key error map rather than a
single NotOpenError failure, and even returns success for an empty key
list. -/
theorem c1_not_open_behavior :
    Set ⟨some ⟨true, []⟩, false, 0⟩ [1]
      = some (.error notOpenMsg, ⟨some ⟨true, []⟩, false, 0⟩) ∧
    SetWithTTL ⟨some ⟨true, []⟩, false, 0⟩ [1] 5
      = some (.error notOpenMsg, ⟨some ⟨true, []⟩, false, 0⟩) ∧
    Get ⟨some ⟨true, []⟩, false, 0⟩ (List.replicate 16 0)
      = some (.error notOpenMsg) ∧
    GetBatch ⟨some ⟨true, []⟩, false, 0⟩ = some (.error notOpenMsg) ∧
    Remove ⟨some ⟨true, []⟩, false, 0⟩ [1]
      = some (.error notOpenMsg, ⟨some ⟨true, []⟩, false, 0⟩) ∧
    RemoveBatch initialState [[1]] = none ∧
    RemoveBatch ⟨some ⟨true, []⟩, false, 0⟩ []
      = some ((true, []), ⟨some ⟨true, []⟩, false, 0⟩) ∧
    RemoveBatch ⟨some ⟨true, []⟩, false, 0⟩ [[1]]
      = some ((false, [(b64Encode [1], notOpenMsg)]),
          ⟨some ⟨true, []⟩, false, 0⟩) :=
  ⟨rfl, rfl, rfl, rfl, rfl, rfl, rfl, rfl⟩

/-- C3 counterexample: the runGC tick does not implement the claimed
policy: on a quiescent nothing-more-to-reclaim pass the code logs the
failure message (the claim says it stops without logging a failure), and
on an error pass the code forces the sync (the claim says the sync is
forced only after a quiescent pass). -/
theorem c3_counterexample :
    runGCTick [GCOutcome.noRewrite] ≠ runGCTickClaim [GCOutcome.noRewrite] ∧
    runGCTick [GCOutcome.failure] ≠ runGCTickClaim [GCOutcome.failure] := by
  constructor <;> decide

/-- C3 amended: on each tick the loop immediately retries reclamation
while the engine reports progress; at the first non-progress outcome —
whether the benign nothing-more-to-reclaim result or a genuine error,
which the code does not distinguish — it logs the failure message, forces
the durability sync, and waits for the next tick. -/
theorem c3_tick_behavior :
    runGCTick [] = none ∧
    (∀ rest, runGCTick (GCOutcome.progress :: rest) = runGCTick rest) ∧
    (∀ rest, runGCTick (GCOutcome.noRewrite :: rest) = some ([gcLogMsg], true)) ∧
    (∀ rest, runGCTick (GCOutcome.failure :: rest) = some ([gcLogMsg], true)) :=
  ⟨rfl, fun _ => rfl, fun _ => rfl, fun _ => rfl⟩

/-- C5: codec round trip — for every serializable record, Marshal succeeds
and Unmarshal of the produced bytes into a valid fresh target succeeds and
returns an equal record. -/
theorem c5_roundtrip (v : TestObj) :
    ∃ data, Marshal v = .ok data ∧ Unmarshal data Target.validPtr = .ok v := by
  refine ⟨gobEncode v, rfl, ?_⟩
  unfold Unmarshal
  rw [gobDecode_gobEncode]

/-- C6: while the engine handle is bound and not closed, either
initialize call fails with AlreadyOpenError and returns the state — the
engine binding, the open flag, and all stored records — unchanged. -/
theorem c6_init_while_open (s : MState) (eng : Engine) (hdb : s.db = some eng)
    (hc : eng.closed = false) :
    InitPersistentMode s
      = (.error "cannot renitialize db while it is still open", s) ∧
    InitDisklessMode s
      = (.error "cannot renitialize db while it is still open", s) := by
  constructor
  · unfold InitPersistentMode
    rw [hdb]
    simp [hc]
  · unfold InitDisklessMode
    rw [hdb]
    simp [hc]

/-- C6 witness: both initialize calls fail with state unchanged on a
concrete open store. -/
theorem c6_witness :
    InitPersistentMode ⟨some freshEngine, true, 0⟩
      = (.error "cannot renitialize db while it is still open",
          ⟨some freshEngine, true, 0⟩) ∧
    InitDisklessMode ⟨some freshEngine, true, 0⟩
      = (.error "cannot renitialize db while it is still open",
          ⟨some freshEngine, true, 0⟩) :=
  c6_init_while_open ⟨some freshEngine, true, 0⟩ freshEngine rfl rfl

/-- C7: GenPK rejects the empty payload with EmptyInputError; on every
non-empty payload it succeeds with the 16-byte MD5 digest of the payload,
and it is a pure deterministic function of the payload bytes alone. -/
theorem c7_genPK :
    GenPK [] = .error "data for key is empty" ∧
    (∀ data : Bytes, data ≠ [] → GenPK data = .ok (md5 data)) ∧
    (∀ data : Bytes, (md5 data).length = 16) ∧
    (∀ d1 d2 : Bytes, d1 = d2 → GenPK d1 = GenPK d2) := by
  refine ⟨rfl, ?_, md5_length, ?_⟩
  · intro data hd
    unfold GenPK
    rw [if_neg (by simpa using hd)]
  · intro d1 d2 h
    rw [h]

/-- C7 witness: key derivation on a concrete one-byte payload. -/
theorem c7_witness :
    GenPK [1] = .ok (md5 [1]) ∧ (md5 [1]).length = 16 :=
  ⟨c7_genPK.2.1 [1] (by simp), c7_genPK.2.2.1 [1]⟩

/-- Get on an open store resolves through the engine read. -/
theorem get_open (s : MState) (eng : Engine) (k : Bytes)
    (ho : s.isOpen = true) (hdb : s.db = some eng) (hk : k.length = 16) :
    Get s k = match engineGet eng s.now k with
      | none => some (.error "key not found")
      | some v => some (.ok v) := by
  unfold Get
  rw [if_neg (by simp [ho]), if_neg (by simp [hk]), hdb]

/-- C2: on an open store, Put of a payload whose derived key already holds
a live record fails with DuplicateKeyError and leaves the state unchanged,
while PutWithTTL of the same payload does not reject the duplicate: it
succeeds, writing the entry under the derived key with expiry at
now + ttl. -/
theorem c2_duplicate (s : MState) (eng : Engine) (data v : Bytes) (ttl : Nat)
    (ho : s.isOpen = true) (hdb : s.db = some eng) (hd : data ≠ [])
    (hdup : engineGet eng s.now (md5 data) = some v) :
    Set s data = some (.error "the entity already exists", s) ∧
    SetWithTTL s data ttl = some (.ok (md5 data),
      { s with db := some { eng with
          entries := putEntry eng.entries ⟨md5 data, data, some (s.now + ttl)⟩ } }) := by
  have hgen : GenPK data = .ok (md5 data) := c7_genPK.2.1 data hd
  have hget : Get s (md5 data) = some (.ok v) := by
    rw [get_open s eng (md5 data) ho hdb (md5_length data), hdup]
  constructor
  · unfold Set
    rw [if_neg (by simp [ho]), hgen]
    simp only [hget]
  · unfold SetWithTTL
    rw [if_neg (by simp [ho])]
    simp only [hgen, hdb]

/-- C2 witness: on a concrete open store holding the record for payload
[1], Set of [1] fails as a duplicate with the store unchanged while
SetWithTTL of [1] overwrites the entry with an expiry. -/
theorem c2_witness :
    Set ⟨some ⟨false, [⟨md5 [1], [1], none⟩]⟩, true, 3⟩ [1]
      = some (.error "the entity already exists",
          ⟨some ⟨false, [⟨md5 [1], [1], none⟩]⟩, true, 3⟩) ∧
    SetWithTTL ⟨some ⟨false, [⟨md5 [1], [1], none⟩]⟩, true, 3⟩ [1] 7
      = some (.ok (md5 [1]),
          ⟨some ⟨false, [⟨md5 [1], [1], some 10⟩]⟩, true, 3⟩) := by
  have h := c2_duplicate ⟨some ⟨false, [⟨md5 [1], [1], none⟩]⟩, true, 3⟩
    ⟨false, [⟨md5 [1], [1], none⟩]⟩ [1] [1] 7 rfl rfl (by simp)
    (by simp [engineGet, findEntry, live])
  simpa [putEntry] using h

/-- C4: Get contract on an open store: a key whose length is not 16 fails
with InvalidKeyError; a well-formed key with no live record — including a
key whose only record is past its expiry — fails with NotFoundError and
nothing else; a key with a live record returns exactly the stored payload
bytes. -/
theorem c4_get (s : MState) (eng : Engine)
    (ho : s.isOpen = true) (hdb : s.db = some eng) :
    (∀ k : Bytes, k.length ≠ 16 → Get s k = some (.error "invalid key")) ∧
    (∀ k : Bytes, k.length = 16 → engineGet eng s.now k = none →
      Get s k = some (.error "key not found")) ∧
    (∀ (ent : Entry) (t : Nat), findEntry eng.entries ent.key = some ent →
      ent.expiresAt = some t → t ≤ s.now → ent.key.length = 16 →
      Get s ent.key = some (.error "key not found")) ∧
    (∀ k v : Bytes, k.length = 16 → engineGet eng s.now k = some v →
      Get s k = some (.ok v)) := by
  refine ⟨?_, ?_, ?_, ?_⟩
  · intro k hk
    unfold Get
    rw [if_neg (by simp [ho]), if_pos hk]
  · intro k hk hnone
    rw [get_open s eng k ho hdb hk, hnone]
  · intro ent t hfind hexp hle hk
    have hnone : engineGet eng s.now ent.key = none := by
      have hlive : live s.now ent = false := by
        unfold live
        rw [hexp]
        simpa using hle
      unfold engineGet
      simp only [hfind, hlive]
      simp
    rw [get_open s eng ent.key ho hdb hk, hnone]
  · intro k v hk hv
    rw [get_open s eng k ho hdb hk, hv]

/-- C4 witness: on concrete open stores, Get rejects a 3-byte key, reports
not-found for the key of an expired record, and returns the payload for a
live record. -/
theorem c4_witness :
    Get ⟨some ⟨false, []⟩, true, 0⟩ [1, 2, 3] = some (.error "invalid key") ∧
    Get ⟨some ⟨false, [⟨md5 [2], [2], some 5⟩]⟩, true, 9⟩ (md5 [2])
      = some (.error "key not found") ∧
    Get ⟨some ⟨false, [⟨md5 [1], [1], none⟩]⟩, true, 0⟩ (md5 [1])
      = some (.ok [1]) := by
  refine ⟨?_, ?_, ?_⟩
  · exact (c4_get ⟨some ⟨false, []⟩, true, 0⟩ ⟨false, []⟩ rfl rfl).1 [1, 2, 3]
      (by simp)
  · exact (c4_get _ ⟨false, [⟨md5 [2], [2], some 5⟩]⟩ rfl rfl).2.2.1
      ⟨md5 [2], [2], some 5⟩ 5 (by simp [findEntry]) rfl
      (show (5 : Nat) ≤ 9 by omega) (md5_length [2])
  · exact (c4_get _ ⟨false, [⟨md5 [1], [1], none⟩]⟩ rfl rfl).2.2.2 (md5 [1]) [1]
      (md5_length [1]) (by simp [engineGet, findEntry, live])

/-- C8: GetBatch on an open store returns a map with exactly one entry per
live record, keyed by the base64 encoding of the stored key, with the
stored payload as value. -/
theorem c8_getBatch (s : MState) (eng : Engine)
    (ho : s.isOpen = true) (hdb : s.db = some eng)
    (hpw : List.Pairwise (fun x y : Entry => x.key ≠ y.key) eng.entries)
    (hbound : ∀ ent ∈ eng.entries, ∀ b ∈ ent.key, b < 256) :
    ∃ m, GetBatch s = some (.ok m) ∧
      m = (liveList eng s.now).map (fun ent => (b64Encode ent.key, ent.value)) ∧
      m.length = (liveList eng s.now).length ∧
      (∀ p, p ∈ m ↔ ∃ ent, ent ∈ liveList eng s.now ∧
        p = (b64Encode ent.key, ent.value)) := by
  have hsub : List.Sublist (liveList eng s.now) eng.entries :=
    List.filter_sublist _
  have hpw2 : List.Pairwise
      (fun x y : Entry => b64Encode x.key ≠ b64Encode y.key)
      (liveList eng s.now) := by
    refine List.Pairwise.imp_of_mem ?_ (hpw.sublist hsub)
    intro a b ha hb hne he
    exact hne (b64Encode_inj (hbound a (hsub.subset ha))
      (hbound b (hsub.subset hb)) he)
  refine ⟨(liveList eng s.now).map (fun ent => (b64Encode ent.key, ent.value)),
    ?_, rfl, by simp, ?_⟩
  · unfold GetBatch
    rw [if_neg (by simp [ho])]
    simp only [hdb]
    rw [foldl_mapInsert_eq _ [] hpw2 (by intro ent _ p hp; simp at hp)]
    simp
  · intro p
    simp only [List.mem_map]
    constructor
    · rintro ⟨ent, hent, rfl⟩
      exact ⟨ent, hent, rfl⟩
    · rintro ⟨ent, hent, rfl⟩
      exact ⟨ent, hent, rfl⟩

/-- C8 witness: GetBatch on a concrete open store holding one live record
and one expired record returns exactly the live pair. -/
theorem c8_witness :
    ∃ m, GetBatch ⟨some ⟨false, [⟨md5 [1], [1], none⟩]⟩, true, 0⟩
        = some (.ok m) ∧
      m = [(b64Encode (md5 [1]), [1])] ∧ m.length = 1 := by
  obtain ⟨m, h1, h2, h3, _⟩ := c8_getBatch
    ⟨some ⟨false, [⟨md5 [1], [1], none⟩]⟩, true, 0⟩
    ⟨false, [⟨md5 [1], [1], none⟩]⟩ rfl rfl (by simp)
    (by
      intro ent hent b hb
      simp only [List.mem_singleton] at hent
      subst hent
      exact md5_lt [1] b hb)
  refine ⟨m, h1, ?_, ?_⟩
  · rw [h2]
    simp [liveList, live]
  · rw [h3]
    simp [liveList, live]

/-- The RemoveBatch loop ignores zero-length keys. -/
theorem removeLoop_filter :
    ∀ (keys : List Bytes) (s : MState) (errs : List (List Char × String)),
      removeLoop s errs keys
        = removeLoop s errs (keys.filter (fun k => !(k.length == 0)))
  | [], _, _ => rfl
  | k :: ks, s, errs => by
    by_cases hk : k.length = 0
    · have hp : (!(k.length == 0)) = false := by simp [hk]
      simp only [removeLoop, if_pos hk, List.filter_cons, hp]
      simp only [Bool.false_eq_true, if_false]
      exact removeLoop_filter ks s errs
    · have hp : (!(k.length == 0)) = true := by simp [hk]
      simp only [removeLoop, if_neg hk, List.filter_cons, hp, if_true]
      rcases hrem : Remove s k with _ | ⟨r, s1⟩
      · simp only [hrem]
      · cases r with
        | ok u =>
          simp only [hrem]
          exact removeLoop_filter ks s1 errs
        | error msg =>
          simp only [hrem]
          exact removeLoop_filter ks s1 _

/-- On a closed store the loop records the not-open failure for every
non-empty key, keeping earlier records. -/
theorem removeLoop_closed (eng : Engine) (n : Nat) :
    ∀ (keys : List Bytes) (errs : List (List Char × String))
      (out : List (List Char × String) × MState),
      removeLoop ⟨some eng, false, n⟩ errs keys = some out →
      (∀ p ∈ errs, p.2 = notOpenMsg → p ∈ out.1) ∧
      (∀ k ∈ keys, k ≠ [] → (b64Encode k, notOpenMsg) ∈ out.1)
  | [], errs, out, h => by
    cases h
    exact ⟨fun p hp _ => hp, by simp⟩
  | k :: ks, errs, out, h => by
    by_cases hk : k.length = 0
    · have hknil : k = [] := List.length_eq_zero.mp hk
      simp only [removeLoop, if_pos hk] at h
      obtain ⟨h1, h2⟩ := removeLoop_closed eng n ks errs out h
      refine ⟨h1, ?_⟩
      intro k2 hk2 hne
      rcases List.mem_cons.mp hk2 with rfl | hmem
      · exact absurd hknil hne
      · exact h2 k2 hmem hne
    · have hrem : Remove ⟨some eng, false, n⟩ k
          = some (.error notOpenMsg, ⟨some eng, false, n⟩) := rfl
      simp only [removeLoop, if_neg hk, hrem] at h
      obtain ⟨h1, h2⟩ := removeLoop_closed eng n ks
        (mapInsert errs (b64Encode k) notOpenMsg) out h
      constructor
      · intro p hp hv
        obtain ⟨pk, pv⟩ := p
        simp only at hv
        subst hv
        exact h1 (pk, notOpenMsg)
          (mem_mapInsert_keep errs pk (b64Encode k) notOpenMsg hp) rfl
      · intro k2 hk2 hne
        rcases List.mem_cons.mp hk2 with rfl | hmem
        · exact h1 (b64Encode k2, notOpenMsg)
            (mem_mapInsert_self errs (b64Encode k2) notOpenMsg) rfl
        · exact h2 k2 hmem hne

/-- C9: deletion contract: on an open store Remove succeeds on an absent
key leaving the state unchanged (idempotent) and deletes the record of a
present key; RemoveBatch silently skips zero-length keys, reports success
exactly when the error map is empty, and on a closed store records the
per-key failure under the base64 encoding of each non-empty key. -/
theorem c9_deletion :
    (∀ (s : MState) (eng : Engine) (k : Bytes), s.isOpen = true →
      s.db = some eng → findEntry eng.entries k = none →
      Remove s k = some (.ok (), s)) ∧
    (∀ (s : MState) (eng : Engine) (k : Bytes), s.isOpen = true →
      s.db = some eng →
      Remove s k = some (.ok (),
        { s with db := some { eng with entries := engineDel eng.entries k } }) ∧
      findEntry (engineDel eng.entries k) k = none) ∧
    (∀ (s : MState) (keys : List Bytes),
      RemoveBatch s keys
        = RemoveBatch s (keys.filter (fun k => !(k.length == 0)))) ∧
    (∀ (s : MState) (keys : List Bytes)
      (r : Bool × List (List Char × String)) (s1 : MState),
      RemoveBatch s keys = some (r, s1) → (r.1 = true ↔ r.2 = [])) ∧
    (∀ (eng : Engine) (n : Nat) (keys : List Bytes)
      (out : (Bool × List (List Char × String)) × MState),
      RemoveBatch ⟨some eng, false, n⟩ keys = some out →
      ∀ k ∈ keys, k ≠ [] → (b64Encode k, notOpenMsg) ∈ out.1.2) := by
  have hrm : ∀ (s : MState) (eng : Engine) (k : Bytes), s.isOpen = true →
      s.db = some eng →
      Remove s k = some (.ok (),
        { s with db := some { eng with entries := engineDel eng.entries k } }) := by
    intro s eng k ho hdb
    unfold Remove
    rw [if_neg (by simp [ho])]
    simp only [hdb]
  refine ⟨?_, ?_, ?_, ?_, ?_⟩
  · intro s eng k ho hdb habs
    have h := hrm s eng k ho hdb
    rw [engineDel_of_absent eng.entries k habs] at h
    obtain ⟨db, op, now⟩ := s
    cases hdb
    exact h
  · intro s eng k ho hdb
    exact ⟨hrm s eng k ho hdb, findEntry_engineDel eng.entries k⟩
  · intro s keys
    unfold RemoveBatch
    rw [removeLoop_filter keys s []]
  · intro s keys r s1 h
    unfold RemoveBatch at h
    split at h
    · cases h
    · split at h
      · cases h
      · rename_i errs s2 heq
        cases h
        simp [List.isEmpty_iff]
  · intro eng n keys out h
    unfold RemoveBatch at h
    split at h
    · cases h
    · split at h
      · cases h
      · rename_i errs s2 heq
        cases h
        exact (removeLoop_closed eng n keys [] (errs, s2) heq).2

/-- C9 witness: concrete deletions — removing an absent key from an open
empty store succeeds unchanged; removing the stored key deletes the
record; RemoveBatch skips an empty key, its success flag matches the empty
error map, and on a closed store it records the not-open failure for a
non-empty key. -/
theorem c9_witness :
    Remove ⟨some ⟨false, []⟩, true, 0⟩ (List.replicate 16 7)
      = some (.ok (), ⟨some ⟨false, []⟩, true, 0⟩) ∧
    (Remove ⟨some ⟨false, [⟨md5 [1], [1], none⟩]⟩, true, 0⟩ (md5 [1])
        = some (.ok (), ⟨some ⟨false,
            engineDel [⟨md5 [1], [1], none⟩] (md5 [1])⟩, true, 0⟩) ∧
      findEntry (engineDel [⟨md5 [1], [1], none⟩] (md5 [1])) (md5 [1]) = none) ∧
    RemoveBatch ⟨some ⟨false, []⟩, true, 0⟩ [[], [5]]
      = RemoveBatch ⟨some ⟨false, []⟩, true, 0⟩ [[5]] ∧
    (true = true ↔ ([] : List (List Char × String)) = []) ∧
    (b64Encode [5], notOpenMsg)
      ∈ [(b64Encode [5], notOpenMsg)] := by
  refine ⟨?_, ?_, ?_, ?_, ?_⟩
  · exact c9_deletion.1 ⟨some ⟨false, []⟩, true, 0⟩ ⟨false, []⟩
      (List.replicate 16 7) rfl rfl (by simp [findEntry])
  · exact c9_deletion.2.1 ⟨some ⟨false, [⟨md5 [1], [1], none⟩]⟩, true, 0⟩
      ⟨false, [⟨md5 [1], [1], none⟩]⟩ (md5 [1]) rfl rfl
  · have h := c9_deletion.2.2.1 ⟨some ⟨false, []⟩, true, 0⟩ [[], [5]]
    simpa using h
  · exact c9_deletion.2.2.2.1 ⟨some ⟨false, []⟩, true, 0⟩ [[5]]
      (true, []) ⟨some ⟨false, []⟩, true, 0⟩ rfl
  · have h := c9_deletion.2.2.2.2 ⟨false, []⟩ 0 [[5]]
      ((false, [(b64Encode [5], notOpenMsg)]), ⟨some ⟨false, []⟩, false, 0⟩)
      rfl [5] (by simp) (by simp)
    exact h

/-- C10: in every store state reachable through the public operations,
every stored entry key is exactly the 16-byte content digest of its
payload and every stored payload is non-empty; Set, SetWithTTL, Remove and
RemoveBatch each preserve this invariant (together with key
distinctness). -/
theorem c10_invariant :
    (∀ s : MState, Reachable s → ∀ eng, s.db = some eng →
      ∀ ent ∈ eng.entries, ent.key = md5 ent.value ∧ ent.value ≠ []) ∧
    (∀ (s : MState) (data : Bytes) (r : Except String Bytes) (s1 : MState),
      StoreInv s → Set s data = some (r, s1) → StoreInv s1) ∧
    (∀ (s : MState) (data : Bytes) (ttl : Nat) (r : Except String Bytes)
      (s1 : MState), StoreInv s → SetWithTTL s data ttl = some (r, s1) →
      StoreInv s1) ∧
    (∀ (s : MState) (k : Bytes) (r : Except String Unit) (s1 : MState),
      StoreInv s → Remove s k = some (r, s1) → StoreInv s1) ∧
    (∀ (s : MState) (keys : List Bytes)
      (out : (Bool × List (List Char × String)) × MState),
      StoreInv s → RemoveBatch s keys = some out → StoreInv out.2) := by
  refine ⟨?_, storeInv_set, storeInv_setWithTTL, storeInv_remove,
    storeInv_removeBatch⟩
  intro s hr eng hdb ent hent
  exact ((reachable_storeInv s hr) eng hdb).1 ent hent

/-- C10 witness: the invariant at the concrete reachable state after
opening diskless mode, and preservation across a concrete Set. -/
theorem c10_witness :
    (∀ ent ∈ freshEngine.entries, ent.key = md5 ent.value ∧ ent.value ≠ []) ∧
    StoreInv ⟨some ⟨false, [⟨md5 [1], [1], none⟩]⟩, true, 0⟩ := by
  constructor
  · exact c10_invariant.1 ⟨some freshEngine, true, 0⟩
      (Reachable.initDiskless Reachable.init) freshEngine rfl
  · refine c10_invariant.2.1 ⟨some freshEngine, true, 0⟩ [1] (.ok (md5 [1]))
      ⟨some ⟨false, [⟨md5 [1], [1], none⟩]⟩, true, 0⟩
      (reachable_storeInv _ (Reachable.initDiskless Reachable.init)) ?_
    have hgen : GenPK [1] = .ok (md5 [1]) := c7_genPK.2.1 [1] (by simp)
    have hget : Get ⟨some freshEngine, true, 0⟩ (md5 [1])
        = some (.error "key not found") := by
      rw [get_open _ freshEngine _ rfl rfl (md5_length [1])]
      simp [engineGet, findEntry, freshEngine]
    unfold Set
    rw [if_neg (by simp), hgen]
    simp only [hget]
    simp [putEntry, freshEngine]

end MStore
